import Mathlib

/-!
Verification of the VerseFlow reading-progress plugin (`src/main.ts`).

The development shallowly embeds the reconciliation core of the plugin:
the read-state map model, `computeFromMap`, the finalize map update and
checkbox extraction, the event-ledger rendering/parsing pair, the pacing
calculation of `insertTodayTarget`, the append-only events-table writer,
and the progress-frontmatter accessors.  Document text is modelled as a
list of characters; JSON values stored in the read-state map are modelled
by an inductive type that captures JavaScript truthiness.
-/

namespace VerseFlow

/-- Document/string type: JavaScript strings modelled as character lists. -/
abbrev Str := List Char

/-- A JSON value as it can appear as an entry of the read-state map object
(`bible-read-map.json`).  `undefV` stands for a missing key. -/
inductive JsVal where
  | undefV : JsVal
  | nullV : JsVal
  | boolV : Bool → JsVal
  | numV : Int → JsVal
  | strV : Str → JsVal
  | arr : List Str → JsVal
deriving DecidableEq

/-- JavaScript truthiness (`!!v`) of a map entry. -/
def jsTruthy : JsVal → Bool
  | .undefV => false
  | .nullV => false
  | .boolV b => b
  | .numV n => n != 0
  | .strV s => !s.isEmpty
  | .arr _ => true

/-- `src/main.ts` line 146: `Array.isArray(v) ? v.length > 0 : !!v`. -/
def hasRead : JsVal → Bool
  | .arr l => !l.isEmpty
  | v => jsTruthy v

/-- A read-state map object: index to JSON value (`undefV` = key absent). -/
abbrev ReadMap := Nat → JsVal

/-- One iteration of the `computeFromMap` loop (`src/main.ts` lines 144-148).
State: `(uniqueRead, firstUnread, seenUnread)`. -/
def computeStep (m : ReadMap) (st : Nat × Nat × Bool) (i : Nat) : Nat × Nat × Bool :=
  if hasRead (m i) then (st.1 + 1, st.2.1, st.2.2)
  else if st.2.2 then st else (st.1, i, true)

/-- `computeFromMap` (`src/main.ts` lines 142-151): scans indices
`0..total-1`, counting read entries and recording the first unread index
(`total` when every index is read). -/
def computeFromMap (m : ReadMap) (total : Nat) : Nat × Nat :=
  let st := (List.range total).foldl (computeStep m) (0, 0, false)
  (st.1, if st.2.2 then st.2.1 else total)

/-! ## Finalize: read-state map update -/

/-- Per-entry update of `finalizeBibleRead` (`src/main.ts` lines 376-377):
coerce a non-array entry to `[]`, then push the stamp unless it already is
the last element (`arr[arr.length - 1] !== localISO`). -/
def touchVal (stamp : Str) (v : JsVal) : JsVal :=
  let arr := match v with
    | .arr l => l
    | _ => []
  if arr.getLast? = some stamp then .arr arr else .arr (arr ++ [stamp])

/-- The map-update loop of `finalizeBibleRead` (`src/main.ts` lines 375-378):
touch every completed index in order. -/
def finalizeMapUpdate (m : ReadMap) (stamp : Str) (sorted : List Nat) : ReadMap :=
  sorted.foldl (fun acc idx => fun j => if j = idx then touchVal stamp (acc idx) else acc j) m

/-! ## Finalize: checkbox extraction

The regex `/\[[xX]\][^\n]*\(idx:(\d+)\)/g` (`src/main.ts` line 366) is
embedded as a character scanner: at each position a checked box `[x]`/`[X]`
is tried; on success the greedy `[^\n]*` makes the engine capture the
*last* `(idx:<digits>)` token on the rest of the line and resume after it;
on failure the engine moves one character forward. -/

/-- Numeric value of a digit string (the regex capture `(\d+)` parsed by
`Number.parseInt`). -/
def digitsToNat (ds : Str) : Nat :=
  ds.foldl (fun a c => a * 10 + (c.toNat - 48)) 0

/-- Match `(idx:<digits>)` exactly at the head; return the captured number
and the suffix after the closing parenthesis. -/
def matchIdxToken : Str → Option (Nat × Str)
  | '(' :: 'i' :: 'd' :: 'x' :: ':' :: rest =>
    let ds := rest.takeWhile Char.isDigit
    if ds.isEmpty then none
    else match rest.drop ds.length with
      | ')' :: tail => some (digitsToNat ds, tail)
      | _ => none
  | _ => none

/-- Latest `(idx:N)` token on the current line (greedy `[^\n]*`
backtracking): prefer a match starting later in the line. -/
def lastIdxOnLine : Str → Option (Nat × Str)
  | [] => none
  | c :: rest =>
    if c = '\n' then none
    else match lastIdxOnLine rest with
      | some r => some r
      | none => matchIdxToken (c :: rest)

/-- Fuel-driven global scan for `\[[xX]\][^\n]*\(idx:(\d+)\)`.  Every step
consumes at least one character, so fuel equal to the initial length makes
the scan total. -/
def scanAux : Nat → Str → List Nat
  | 0, _ => []
  | _ + 1, [] => []
  | fuel + 1, '[' :: x :: ']' :: tail =>
    if x = 'x' ∨ x = 'X' then
      match lastIdxOnLine tail with
      | some (n, suffix) => n :: scanAux fuel suffix
      | none => scanAux fuel (x :: ']' :: tail)
    else scanAux fuel (x :: ']' :: tail)
  | fuel + 1, _ :: rest => scanAux fuel rest

/-- All regex captures of the finalize extraction, in document order. -/
def scanMatches (content : Str) : List Nat :=
  scanAux content.length content

/-- `Set.add` of JavaScript: insert if absent, keeping insertion order. -/
def addToSet (acc : List Nat) (n : Nat) : List Nat :=
  if n ∈ acc then acc else acc ++ [n]

/-- The `Set` of extracted indices (`src/main.ts` lines 367-368),
in insertion order. -/
def collectSet (l : List Nat) : List Nat := l.foldl addToSet []

/-- `[...indices].sort((a, b) => a - b)` (`src/main.ts` line 374): the
completed-index set in ascending order. -/
def sortedIndices (content : Str) : List Nat :=
  List.insertionSort (· ≤ ·) (collectSet (scanMatches content))

/-! ## Plan and event rows -/

/-- A plan entry `{ref, path}`. -/
structure PlanItem where
  ref : Str
  path : Str
deriving DecidableEq

/-- `plan[idx]` with JavaScript falsiness (`if (!v) continue`): a `null`
array element or an out-of-range index both yield `none`. -/
def planGet (plan : List (Option PlanItem)) (i : Nat) : Option PlanItem :=
  match plan.get? i with
  | some (some v) => some v
  | _ => none

/-- One row of the event ledger `| timestamp | idx | ref | path |`. -/
structure EventRow where
  ts : Str
  idx : Nat
  ref : Str
  path : Str
deriving DecidableEq

/-- The event rows emitted by `finalizeBibleRead` (`src/main.ts` line 388):
one row per completed index that has a plan entry, in ascending order;
indices without a plan entry are skipped. -/
def eventRows (plan : List (Option PlanItem)) (stamp : Str) (sorted : List Nat) :
    List EventRow :=
  sorted.filterMap (fun idx => (planGet plan idx).map (fun v => ⟨stamp, idx, v.ref, v.path⟩))

/-! ## Pacing (`insertTodayTarget`, `src/main.ts` lines 169-182) -/

/-- `Math.ceil(a / b)` for non-negative integers; division by zero gives
`Infinity`, which the guard `!Number.isFinite(expected)` turns into `0`. -/
def jsCeilDivNat (a b : Nat) : Nat :=
  if b = 0 then 0 else (a + b - 1) / b

/-- The pacing quantities computed by `insertTodayTarget`. -/
structure PacingOut where
  daysElapsed : Nat
  expected : Nat
  remaining : Nat
  daysRemaining : Nat
  pace : Nat
  defaultToday : Nat
deriving DecidableEq

/-- The pacing block of `insertTodayTarget` (`src/main.ts` lines 169-181),
with dates as day numbers.  `defaultToday` is the recommended daily count:
`Math.max(1, expected - versesRead || pace)` — note that the `||` operand
is the *unclamped* difference, so a negative difference is truthy. -/
def insertTodayPacing (total targetDays versesRead startDay todayDay : Nat) : PacingOut :=
  let daysElapsed := max 1 (todayDay + 1 - startDay)
  let expected := jsCeilDivNat (total * daysElapsed) targetDays
  let remaining := total - versesRead
  let daysRemaining := max 1 (targetDays - daysElapsed)
  let pace := max 1 (jsCeilDivNat remaining daysRemaining)
  let diff : Int := (expected : Int) - (versesRead : Int)
  let defaultToday := max 1 (if diff = 0 then (pace : Int) else diff)
  ⟨daysElapsed, expected, remaining, daysRemaining, pace, defaultToday.toNat⟩

/-- The recommendation as the specification states it (§4.2 step 7):
`catchup = max(0, expected − versesRead)`; recommend `catchup` when
positive, else `pace`. -/
def specRecommendedToday (total targetDays versesRead daysElapsed : Nat) : Nat :=
  let expected := jsCeilDivNat (total * daysElapsed) targetDays
  let catchup := expected - versesRead
  let remaining := total - versesRead
  let daysRemaining := max 1 (targetDays - daysElapsed)
  let pace := max 1 (jsCeilDivNat remaining daysRemaining)
  if catchup > 0 then catchup else pace

/-! ## Event ledger: text rendering and parsing -/

/-- JavaScript whitespace (`\s`, `trim`), restricted to the ASCII range
that can occur in the documents at hand. -/
def jsIsSpace (c : Char) : Bool :=
  c = ' ' ∨ c = '\t' ∨ c = '\n' ∨ c = '\r' ∨ c = Char.ofNat 12 ∨ c = Char.ofNat 11

/-- `String.prototype.trim`. -/
def jsTrim (s : Str) : Str :=
  (((s.dropWhile jsIsSpace).reverse.dropWhile jsIsSpace).reverse)

/-- `str.split(sep)` for a one-character separator. -/
def splitOnChar (sep : Char) : Str → List Str
  | [] => [[]]
  | c :: rest =>
    match splitOnChar sep rest with
    | [] => [[]]
    | h :: t => if c = sep then [] :: h :: t else (c :: h) :: t

/-- Decimal digit character for a digit value. -/
def digitChar : Nat → Char
  | 0 => '0' | 1 => '1' | 2 => '2' | 3 => '3' | 4 => '4'
  | 5 => '5' | 6 => '6' | 7 => '7' | 8 => '8' | 9 => '9'
  | _ => '*'

/-- Little-endian decimal digits of `n`, with fuel (`fuel ≥ n` suffices). -/
def natDigitsRev : Nat → Nat → List Nat
  | 0, _ => []
  | _, 0 => []
  | f + 1, m + 1 => ((m + 1) % 10) :: natDigitsRev f ((m + 1) / 10)

/-- Decimal rendering of a number (JavaScript `${n}` for a non-negative
integer). -/
def natToChars (n : Nat) : Str :=
  if n = 0 then ['0'] else ((natDigitsRev n n).reverse.map digitChar)

/-- `Number(s)` on an already-trimmed column string, as it occurs in this
table format: the empty string is `0`, a digit string is its value; any
other shape (signs, decimals, exponents) never arises from rendered rows
and is modelled as `NaN` (`none`).  A `none` makes `Number.isFinite` fail
and the row is skipped. -/
def jsNumberNat (s : Str) : Option Nat :=
  if s.isEmpty then some 0
  else if s.all Char.isDigit then some (digitsToNat s) else none

/-- `| timestamp | idx | ref | path |` header line. -/
def eventsHeaderLine : Str := "| timestamp | idx | ref | path |".toList

/-- `|---|---:|---|---|` separator line. -/
def eventsSepLine : Str := "|---|---:|---|---|".toList

/-- The full header block written by `finalizeBibleRead` (line 386) and by
`setupVerseFlowFiles` (line 271). -/
def eventsHeaderFull : Str := eventsHeaderLine ++ '\n' :: eventsSepLine ++ ['\n']

/-- One rendered data row (without the trailing newline):
`| ${localISO} | ${idx} | ${v.ref} | ${v.path} |` (line 388). -/
def eventRowText (e : EventRow) : Str :=
  ['|', ' '] ++ e.ts ++ [' ', '|', ' '] ++ natToChars e.idx
    ++ [' ', '|', ' '] ++ e.ref ++ [' ', '|', ' '] ++ e.path ++ [' ', '|']

/-- A complete fresh ledger document: header block followed by one line per
event (the shape produced on the `create` path of finalize, and by any
number of append-only finalize runs on it). -/
def renderLedger (events : List EventRow) : Str :=
  eventsHeaderFull ++ (events.map (fun e => eventRowText e ++ ['\n'])).flatten

/-- The line filter of `rebuildMapFromEventsCommand` (`src/main.ts` line
462): keep lines starting with `|` that are not separator lines (regex:
start, `\|`, `\s*`, then a dash). -/
def tableLine (l : Str) : Bool :=
  match l with
  | '|' :: rest => !(((rest.dropWhile jsIsSpace).head?) == some '-')
  | _ => false

/-- Parse one data line into `(idx, timestamp)` (`src/main.ts` lines
466-469): split on `|`, trim columns, require at least five columns, a
finite numeric index and a truthy (non-empty) timestamp. -/
def parseRowPair (l : Str) : Option (Nat × Str) :=
  let cols := (splitOnChar '|' l).map jsTrim
  if 5 ≤ cols.length then
    match cols.get? 1, cols.get? 2 with
    | some ts, some idxs =>
      match jsNumberNat idxs with
      | some n => if ts.isEmpty then none else some (n, ts)
      | none => none
    | _, _ => none
  else none

/-- The parsing phase of `rebuildMapFromEventsCommand` (lines 461-474):
split the document into lines, keep table lines, drop the header, and
parse every remaining row. -/
def parseLedgerPairs (text : Str) : List (Nat × Str) :=
  (((splitOnChar '\n' text).filter tableLine).drop 1).filterMap parseRowPair

/-- Replay `(idx, timestamp)` pairs into a fresh map with the
last-timestamp dedup rule (lines 470-471) — the same per-entry update as
finalize. -/
def rebuildFromPairs (pairs : List (Nat × Str)) : ReadMap :=
  pairs.foldl (fun m p => fun j => if j = p.1 then touchVal p.2 (m j) else m j)
    (fun _ => .undefV)

/-- `rebuildMapFromEventsCommand`: the map rebuilt from a ledger document. -/
def rebuildMapFromEvents (text : Str) : ReadMap :=
  rebuildFromPairs (parseLedgerPairs text)

/-- The read-state map after a sequence of finalize sessions
`(stamp, sorted indices)`, starting from the empty map. -/
def finalizeSessions (sessions : List (Str × List Nat)) : ReadMap :=
  sessions.foldl (fun m s => finalizeMapUpdate m s.1 s.2) (fun _ => .undefV)

/-- The complete event ledger of a sequence of finalize sessions: one row
per touched index per session, in session order, with ref/path looked up
from the plan via `rp`. -/
def sessionLedger (rp : Nat → Str × Str) (sessions : List (Str × List Nat)) :
    List EventRow :=
  (sessions.map (fun s => s.2.map (fun i => ⟨s.1, i, (rp i).1, (rp i).2⟩))).flatten

/-- Well-formedness of ledger rows: the timestamp is non-empty, free of
whitespace, `|` and newlines and does not start with `-` (all true of the
`localISO` stamps finalize writes), and ref/path contain no newline. -/
def wfEventRow (e : EventRow) : Bool :=
  (!e.ts.isEmpty) && e.ts.all (fun c => !jsIsSpace c && c != '|' && c != '\n')
    && (e.ts.head? != some '-') && (!e.ref.contains '\n') && (!e.path.contains '\n')

def wfLedger (events : List EventRow) : Bool := events.all wfEventRow

/-! ## Events-table append (`finalizeBibleRead`, lines 389-396) -/

/-- `leadsWith s pat`: `pat` is a prefix of `s`. -/
def leadsWith : Str → Str → Bool
  | _, [] => true
  | [], _ :: _ => false
  | c :: cs, p :: ps => c == p && leadsWith cs ps

/-- The header test of finalize (line 392), regex: a newline, `\|`, `\s*`,
the word `timestamp`, `\s*`, `\|` — tried at one position.  Note the
mandatory leading newline. -/
def matchesEventsHeaderAt : Str → Bool
  | '\n' :: '|' :: rest =>
    let r := rest.dropWhile jsIsSpace
    if leadsWith r "timestamp".toList then
      (((r.drop 9).dropWhile jsIsSpace).head? == some '|')
    else false
  | _ => false

def testEventsHeader : Str → Bool
  | [] => false
  | c :: rest => matchesEventsHeaderAt (c :: rest) || testEventsHeader rest

/-- The events-file write of finalize (lines 389-396): append rows if the
header test fires, else append a newline, the header block and the rows;
create the file from header block plus rows when absent. -/
def appendEventsDoc (existing : Option Str) (rows : Str) : Str :=
  match existing with
  | some e => if testEventsHeader e then e ++ rows else e ++ '\n' :: (eventsHeaderFull ++ rows)
  | none => eventsHeaderFull ++ rows

/-- Number of lines of a document that are exactly the events header row. -/
def headerLineCount (doc : Str) : Nat :=
  ((splitOnChar '\n' doc).filter (fun l => l == eventsHeaderLine)).length

/-! ## Progress snapshot frontmatter -/

/-- A parsed frontmatter value. -/
inductive FmVal where
  | intV : Int → FmVal
  | strV : String → FmVal
  | boolV : Bool → FmVal
deriving DecidableEq

/-- A parsed frontmatter record, in field order. -/
abbrev Frontmatter := List (String × FmVal)

def fmLookup : Frontmatter → String → Option FmVal
  | [], _ => none
  | (k', v') :: rest, k => if k' = k then some v' else fmLookup rest k

/-- JavaScript object property assignment `fm[k] = v`: replace in place if
the key exists, append otherwise (insertion order is preserved). -/
def setKey : Frontmatter → String → FmVal → Frontmatter
  | [], k, v => [(k, v)]
  | (k', v') :: rest, k, v =>
    if k' = k then (k, v) :: rest else (k', v') :: setKey rest k v

/-- A progress document: parsed preamble plus the remaining body text. -/
structure ProgressDoc where
  fm : Frontmatter
  body : String
deriving DecidableEq

/-- Models the host `fileManager.processFrontMatter` operation (an external
collaborator per spec section 6): apply a mutation to the parsed preamble
and leave the body untouched. -/
def processFrontMatter (d : ProgressDoc) (f : Frontmatter → Frontmatter) : ProgressDoc :=
  ⟨f d.fm, d.body⟩

/-- The mutation passed by `updateProgressFrontmatter` (`src/main.ts`
lines 420-423): set `last_order` and `verses_read`. -/
def progressPatch (d : ProgressDoc) (lastOrder versesRead : Int) : ProgressDoc :=
  processFrontMatter d
    (fun fm => setKey (setKey fm "last_order" (.intV lastOrder)) "verses_read" (.intV versesRead))

/-- `updateProgressFrontmatter` (`src/main.ts` lines 418-424) at the vault
level: `if (!f) return;` — a missing progress document is left missing. -/
def updateProgressFrontmatter (doc : Option ProgressDoc) (lastOrder versesRead : Int) :
    Option ProgressDoc :=
  match doc with
  | none => none
  | some d => some (progressPatch d lastOrder versesRead)

/-- `Number.parseInt` on a string: skip leading whitespace, optional sign,
then a digit prefix; no digits means `NaN` (`none`). -/
def jsParseIntStr (s : String) : Option Int :=
  let cs := s.toList.dropWhile jsIsSpace
  let signed : Int × Str :=
    match cs with
    | '-' :: r => (-1, r)
    | '+' :: r => (1, r)
    | r => (1, r)
  let ds := signed.2.takeWhile Char.isDigit
  if ds.isEmpty then none else some (signed.1 * (digitsToNat ds : Int))

/-- `Number.parseInt` applied to a frontmatter value (the value is
stringified first, so an integer parses back to itself; booleans and
non-numeric strings give `NaN`). -/
def jsParseIntFm : FmVal → Option Int
  | .intV n => some n
  | .strV s => jsParseIntStr s
  | .boolV _ => none

/-- `Number.parseInt(fm.key ?? dflt) || dflt` (`src/main.ts` lines
133-137): a missing key, an unparseable value and a parse result of `0`
all fall back to the default. -/
def intField (fm : Frontmatter) (key : String) (dflt : Int) : Int :=
  match fmLookup fm key with
  | none => dflt
  | some v =>
    match jsParseIntFm v with
    | some n => if n = 0 then dflt else n
    | none => dflt

/-- The snapshot returned by `readProgress`. -/
structure ProgressSnapshot where
  last_order : Int
  verses_read : Int
  total_verses : Int
  start_date : String
  target_days : Int
deriving DecidableEq

/-- `readProgress` (`src/main.ts` lines 127-139): a missing progress file
degrades to the documented defaults; otherwise each field is parsed from
the frontmatter with its fallback.  No file is created in either case. -/
def readProgress (file : Option Frontmatter) (todayIso : String) : ProgressSnapshot :=
  match file with
  | none => ⟨0, 0, 31102, todayIso, 365⟩
  | some fm =>
    { last_order := intField fm "last_order" 0
      verses_read := intField fm "verses_read" 0
      total_verses := intField fm "total_verses" 31102
      start_date :=
        match fmLookup fm "start_date" with
        | some (.strV s) => s
        | _ => todayIso
      target_days := intField fm "target_days" 365 }

/-! ## Spec-side views of the read-state map -/

/-- Injection of a timestamp-list map (the `ReadStateMap` of the data
model: index to list of timestamps, possibly absent) into JSON values. -/
def ofTsMap (M : Nat → Option (List Str)) : ReadMap := fun i =>
  match M i with
  | some l => .arr l
  | none => .undefV

/-- Index `i` carries a non-empty timestamp list. -/
def readEntry (M : Nat → Option (List Str)) (i : Nat) : Bool :=
  match M i with
  | some l => !l.isEmpty
  | none => false

/-- A truthy JavaScript value that is not an array (e.g. a non-empty
string or a non-zero number). -/
def isTruthyNonArray : JsVal → Bool
  | .arr _ => false
  | v => jsTruthy v

/-- A concrete finalize stamp (second-precision local ISO). -/
def stampC : Str := "2025-01-01T12:00:00".toList

/-- A concrete three-entry plan. -/
def plan3c : List (Option PlanItem) :=
  [some ⟨"Gen 1:1".toList, "Bible/Genesis/Gen-1.md#Gen-1-1".toList⟩,
   some ⟨"Gen 1:2".toList, "Bible/Genesis/Gen-1.md#Gen-1-2".toList⟩,
   some ⟨"Gen 1:3".toList, "Bible/Genesis/Gen-1.md#Gen-1-3".toList⟩]

/-- The loop state after scanning `0..total-1`, in closed form. -/
theorem computeFold_eq (m : ReadMap) (total : Nat) :
    (List.range total).foldl (computeStep m) (0, 0, false)
      = ((List.range total).countP (fun i => hasRead (m i)),
         ((List.range total).find? (fun i => !hasRead (m i))).getD 0,
         (List.range total).any (fun i => !hasRead (m i))) := by
  induction total with
  | zero => rfl
  | succ n ih =>
    rw [List.range_succ, List.foldl_append, ih]
    simp only [List.foldl_cons, List.foldl_nil, List.countP_append, List.any_append,
      List.find?_append, List.countP_cons, List.countP_nil, List.any_cons, List.any_nil,
      List.find?_cons, List.find?_nil]
    by_cases h : hasRead (m n)
    · simp [computeStep, h]
    · simp only [computeStep, h, Bool.not_false, if_false, Bool.not_true, if_true,
        Bool.false_eq_true]
      by_cases hseen : (List.range n).any (fun i => !hasRead (m i))
      · have : ((List.range n).find? (fun i => !hasRead (m i))).isSome := by
          rw [List.find?_isSome]
          simpa [List.any_eq_true] using hseen
        obtain ⟨j, hj⟩ := Option.isSome_iff_exists.mp this
        simp [hseen, hj, Option.or]
      · have hnone : (List.range n).find? (fun i => !hasRead (m i)) = none := by
          rw [List.find?_eq_none]
          intro x hx
          have := (List.any_eq_true.not.mp hseen)
          push_neg at this
          simpa using this x hx
        simp [hseen, hnone, Option.or, h]

/-- `uniqueRead` is the count of read indices in `[0, total)`. -/
theorem computeFromMap_fst (m : ReadMap) (total : Nat) :
    (computeFromMap m total).1 = (List.range total).countP (fun i => hasRead (m i)) := by
  simp [computeFromMap, computeFold_eq]

/-- `firstUnread` is the first unread index in scan order, `total` if none. -/
theorem computeFromMap_snd (m : ReadMap) (total : Nat) :
    (computeFromMap m total).2
      = ((List.range total).find? (fun i => !hasRead (m i))).getD total := by
  simp only [computeFromMap, computeFold_eq]
  by_cases h : (List.range total).any (fun i => !hasRead (m i))
  · have : ((List.range total).find? (fun i => !hasRead (m i))).isSome := by
      rw [List.find?_isSome]
      simpa [List.any_eq_true] using h
    obtain ⟨j, hj⟩ := Option.isSome_iff_exists.mp this
    simp [h, hj]
  · have hnone : (List.range total).find? (fun i => !hasRead (m i)) = none := by
      rw [List.find?_eq_none]
      intro x hx
      have := (List.any_eq_true.not.mp h)
      push_neg at this
      simpa using this x hx
    simp [h, hnone]

/-- `find?` over `range n` returns the least satisfying index: everything
below the result falsifies the predicate. -/
theorem find?_range_first (p : Nat → Bool) (n j : Nat)
    (h : (List.range n).find? p = some j) : ∀ k, k < j → p k = false := by
  induction n with
  | zero => simp at h
  | succ n ih =>
    rw [List.range_succ, List.find?_append] at h
    cases hfind : (List.range n).find? p with
    | some j' =>
      rw [hfind] at h
      simp only [Option.or] at h
      cases h
      exact ih hfind
    | none =>
      rw [hfind] at h
      simp only [Option.or, List.find?_cons, List.find?_nil] at h
      have hall := List.find?_eq_none.mp hfind
      by_cases hp : p n
      · simp [hp] at h
        subst h
        intro k hk
        have hkmem : k ∈ List.range n := List.mem_range.mpr hk
        simpa using hall k hkmem
      · simp [hp] at h

/-- `find?` only depends on the values of the predicate on the list. -/
theorem find?_congr {α : Type} (p q : α → Bool) (l : List α)
    (h : ∀ a ∈ l, p a = q a) : l.find? p = l.find? q := by
  induction l with
  | nil => rfl
  | cons a l ihl =>
    simp only [List.find?_cons]
    rw [h a (List.mem_cons_self a l)]
    cases q a
    · exact ihl (fun b hb => h b (List.mem_cons_of_mem a hb))
    · rfl

/-- `computeFromMap` reads the map only at indices below `total`. -/
theorem computeFromMap_congr (m m' : ReadMap) (total : Nat)
    (h : ∀ i, i < total → m i = m' i) :
    computeFromMap m total = computeFromMap m' total := by
  have hc : ∀ i ∈ List.range total, hasRead (m i) = hasRead (m' i) := by
    intro i hi
    rw [h i (List.mem_range.mp hi)]
  have hfind : (List.range total).find? (fun i => !hasRead (m i))
      = (List.range total).find? (fun i => !hasRead (m' i)) :=
    find?_congr _ _ _ (fun a ha => by rw [hc a ha])
  have hcount : (List.range total).countP (fun i => hasRead (m i))
      = (List.range total).countP (fun i => hasRead (m' i)) :=
    List.countP_congr (fun a ha => by rw [hc a ha])
  have h1 := computeFromMap_fst m total
  have h2 := computeFromMap_snd m total
  have h1' := computeFromMap_fst m' total
  have h2' := computeFromMap_snd m' total
  ext1
  · rw [h1, h1', hcount]
  · rw [h2, h2', hfind]

theorem touchVal_idem (stamp : Str) (v : JsVal) :
    touchVal stamp (touchVal stamp v) = touchVal stamp v := by
  unfold touchVal
  cases v <;> simp <;> split <;> simp_all [List.getLast?_append]

/-- The updated entry is always a non-empty array ending in the stamp
(unless the pre-existing last element already was the stamp). -/
theorem touchVal_arr (stamp : Str) (v : JsVal) :
    ∃ l, touchVal stamp v = .arr l ∧ l ≠ [] ∧ l.getLast? = some stamp := by
  unfold touchVal
  cases v <;> simp_all <;> split <;>
    simp_all [List.getLast?_append] <;>
    rename_i l h <;> exact List.ne_nil_of_length_pos (by cases l <;> simp_all)

/-- Pointwise description of the finalize map update: a touched index gets
`touchVal` applied once, all other indices keep their entry. -/
theorem finalizeMapUpdate_apply (m : ReadMap) (stamp : Str) (l : List Nat) (j : Nat) :
    finalizeMapUpdate m stamp l j
      = if j ∈ l then touchVal stamp (m j) else m j := by
  induction l generalizing m with
  | nil => simp [finalizeMapUpdate]
  | cons i rest ih =>
    show finalizeMapUpdate (fun j => if j = i then touchVal stamp (m i) else m j) stamp rest j = _
    rw [ih]
    by_cases hj : j ∈ rest
    · by_cases hji : j = i <;> simp [hj, hji, touchVal_idem, List.mem_cons]
    · by_cases hji : j = i <;> simp [hj, hji, touchVal_idem, List.mem_cons]

theorem collectSet_go (l : List Nat) (acc : List Nat) (hacc : acc.Nodup) :
    (l.foldl addToSet acc).Nodup
      ∧ ∀ n, n ∈ l.foldl addToSet acc ↔ n ∈ acc ∨ n ∈ l := by
  induction l generalizing acc with
  | nil => simp [hacc]
  | cons a l ih =>
    simp only [List.foldl_cons]
    by_cases ha : a ∈ acc
    · have := ih acc hacc
      simp only [addToSet, if_pos ha]
      refine ⟨this.1, fun n => ?_⟩
      rw [this.2 n]
      constructor
      · rintro (h | h) <;> simp [h]
      · rintro (h | h)
        · exact Or.inl h
        · rcases List.mem_cons.mp h with h | h
          · subst h; exact Or.inl ha
          · exact Or.inr h
    · have hacc' : (acc ++ [a]).Nodup := by
        simp [List.nodup_append, hacc, ha]
      have := ih (acc ++ [a]) hacc'
      simp only [addToSet, if_neg ha]
      refine ⟨this.1, fun n => ?_⟩
      rw [this.2 n]
      simp [List.mem_append, List.mem_cons]
      tauto

theorem collectSet_nodup (l : List Nat) : (collectSet l).Nodup :=
  (collectSet_go l [] List.nodup_nil).1

theorem mem_collectSet (l : List Nat) (n : Nat) : n ∈ collectSet l ↔ n ∈ l := by
  have := (collectSet_go l [] List.nodup_nil).2 n
  simpa using this

theorem sortedIndices_nodup (content : Str) : (sortedIndices content).Nodup :=
  ((List.perm_insertionSort _ _).nodup_iff).mpr (collectSet_nodup _)

theorem mem_sortedIndices (content : Str) (n : Nat) :
    n ∈ sortedIndices content ↔ n ∈ scanMatches content := by
  rw [sortedIndices, (List.perm_insertionSort _ _).mem_iff, mem_collectSet]

theorem eventRows_idx_mem (plan : List (Option PlanItem)) (stamp : Str)
    (sorted : List Nat) (e : EventRow) (he : e ∈ eventRows plan stamp sorted) :
    e.idx ∈ sorted ∧ planGet plan e.idx ≠ none := by
  obtain ⟨i, hi, hmap⟩ := List.mem_filterMap.mp he
  cases hp : planGet plan i with
  | none => simp [hp] at hmap
  | some v =>
    simp only [hp, Option.map_some'] at hmap
    cases hmap
    exact ⟨hi, by simp [hp]⟩

/-- Rows produced from a duplicate-free index list carry pairwise distinct
indices, so each index yields at most one ledger row. -/
theorem eventRows_filter_le_one (plan : List (Option PlanItem)) (stamp : Str)
    (sorted : List Nat) (hnd : sorted.Nodup) (n : Nat) :
    ((eventRows plan stamp sorted).filter (fun e => e.idx == n)).length ≤ 1 := by
  induction sorted with
  | nil => simp [eventRows]
  | cons i rest ih =>
    have hnd' : rest.Nodup := (List.nodup_cons.mp hnd).2
    have hni : i ∉ rest := (List.nodup_cons.mp hnd).1
    have hrest := ih hnd'
    have hcons : eventRows plan stamp (i :: rest)
        = ((planGet plan i).map (fun v => (⟨stamp, i, v.ref, v.path⟩ : EventRow))).toList
          ++ eventRows plan stamp rest := by
      cases hp : planGet plan i <;> simp [eventRows, List.filterMap_cons, hp]
    rw [hcons, List.filter_append, List.length_append]
    cases hp : planGet plan i with
    | none => simpa using hrest
    | some v =>
      by_cases hin : i = n
      · subst hin
        have hz : (List.filter (fun e => e.idx == i) (eventRows plan stamp rest)).length = 0 := by
          rw [List.length_eq_zero, List.filter_eq_nil_iff]
          intro e he
          have hmem := (eventRows_idx_mem plan stamp rest e he).1
          simp only [beq_iff_eq]
          intro hcontra
          exact hni (hcontra ▸ hmem)
        simp [hz]
      · have hfalse : ((⟨stamp, i, v.ref, v.path⟩ : EventRow).idx == n) = false := by
          simpa using hin
        simp only [Option.map_some', Option.toList_some, List.filter_cons, hfalse]
        simpa using hrest

theorem fmLookup_setKey_same (fm : Frontmatter) (k : String) (v : FmVal) :
    fmLookup (setKey fm k v) k = some v := by
  induction fm with
  | nil => simp [setKey, fmLookup]
  | cons p rest ih =>
    by_cases h : p.1 = k
    · simp [setKey, fmLookup, h]
    · simp [setKey, fmLookup, h, ih]

theorem fmLookup_setKey_other (fm : Frontmatter) (k k' : String) (v : FmVal)
    (hne : k' ≠ k) : fmLookup (setKey fm k v) k' = fmLookup fm k' := by
  have hkk : ¬ (k = k') := fun h => hne h.symm
  induction fm with
  | nil => simp [setKey, fmLookup, hkk]
  | cons p rest ih =>
    obtain ⟨pk, pv⟩ := p
    by_cases h : pk = k
    · subst h
      simp only [setKey, if_pos rfl, fmLookup]
      rw [if_neg hkk, if_neg hkk]
    · simp only [setKey, if_neg h, fmLookup]
      by_cases h' : pk = k' <;> simp [h', ih]

theorem setKey_filter_other (fm : Frontmatter) (k : String) (v : FmVal)
    (p : String × FmVal → Bool) (hp : ∀ w, p (k, w) = false) :
    (setKey fm k v).filter p = fm.filter p := by
  induction fm with
  | nil => simp [setKey, hp]
  | cons q rest ih =>
    by_cases h : q.1 = k
    · obtain ⟨qk, qv⟩ := q
      simp only at h
      subst h
      simp [setKey, List.filter_cons, hp]
    · simp [setKey, h, List.filter_cons, ih]

theorem hasRead_ofTsMap (M : Nat → Option (List Str)) (i : Nat) :
    hasRead (ofTsMap M i) = readEntry M i := by
  cases h : M i <;> simp [ofTsMap, readEntry, hasRead, jsTruthy, h]

/-- C1: `computeFromMap(M, total)` returns `uniqueRead` equal to the number
of indices in `[0, total)` whose entry is a non-empty timestamp list, and
`firstUnread` equal to the smallest index in `[0, total)` with an empty or
missing entry — `total` when none exists; the empty map yields `(0, 0)` and
a fully dense map yields `firstUnread = total`. -/
theorem computeFromMap_counts_and_first_unread
    (M : Nat → Option (List Str)) (total : Nat) :
    (computeFromMap (ofTsMap M) total).1
        = (List.range total).countP (fun i => readEntry M i)
    ∧ (∀ i, i < total → readEntry M i = false →
        (computeFromMap (ofTsMap M) total).2 ≤ i)
    ∧ ((computeFromMap (ofTsMap M) total).2 = total
        ∨ ((computeFromMap (ofTsMap M) total).2 < total
            ∧ readEntry M ((computeFromMap (ofTsMap M) total).2) = false))
    ∧ ((∀ i, i < total → readEntry M i = true) →
        (computeFromMap (ofTsMap M) total).2 = total)
    ∧ computeFromMap (ofTsMap (fun _ => none)) total = (0, 0) := by
  have hpred : ∀ i, (!hasRead (ofTsMap M i)) = !readEntry M i := by
    intro i
    rw [hasRead_ofTsMap]
  have hsnd := computeFromMap_snd (ofTsMap M) total
  refine ⟨?_, ?_, ?_, ?_, ?_⟩
  · rw [computeFromMap_fst]
    exact List.countP_congr (fun i _ => by rw [hasRead_ofTsMap])
  · intro i hi hunread
    rw [hsnd]
    cases hfind : (List.range total).find? (fun i => !hasRead (ofTsMap M i)) with
    | none =>
      exfalso
      have hall := List.find?_eq_none.mp hfind
      have := hall i (List.mem_range.mpr hi)
      rw [hpred i, hunread] at this
      exact this rfl
    | some j =>
      simp only [Option.getD_some]
      by_contra hlt
      push_neg at hlt
      have := find?_range_first _ total j hfind i hlt
      rw [hpred i, hunread] at this
      simp at this
  · rw [hsnd]
    cases hfind : (List.range total).find? (fun i => !hasRead (ofTsMap M i)) with
    | none => exact Or.inl rfl
    | some j =>
      refine Or.inr ⟨List.mem_range.mp (List.mem_of_find?_eq_some hfind), ?_⟩
      have := List.find?_some hfind
      rw [hpred j] at this
      simpa using this
  · intro hall
    rw [hsnd]
    have hfind : (List.range total).find? (fun i => !hasRead (ofTsMap M i)) = none := by
      rw [List.find?_eq_none]
      intro x hx
      rw [hpred x, hall x (List.mem_range.mp hx)]
      simp
    rw [hfind]
    rfl
  · have hfst := computeFromMap_fst (ofTsMap (fun _ => none)) total
    have hsnd' := computeFromMap_snd (ofTsMap (fun _ => none)) total
    have hread : ∀ i, hasRead (ofTsMap (fun _ => none) i) = false := by
      intro i
      rfl
    ext1
    · rw [hfst]
      simp [hread]
    · rw [hsnd']
      cases total with
      | zero => rfl
      | succ n =>
        rw [List.range_succ_eq_map, List.find?_cons]
        simp [hread]

/-- Witness for C1 at the map `{0 ↦ ["t"]}` and `total = 3`: the count is
as stated and the first-unread bound applies at the unread index 1. -/
theorem computeFromMap_counts_and_first_unread_witness :
    (computeFromMap (ofTsMap (fun i => if i = 0 then some [['t']] else none)) 3).1
        = (List.range 3).countP (fun i => readEntry (fun i => if i = 0 then some [['t']] else none) i)
    ∧ (computeFromMap (ofTsMap (fun i => if i = 0 then some [['t']] else none)) 3).2 ≤ 1 := by
  have h := computeFromMap_counts_and_first_unread (fun i => if i = 0 then some [['t']] else none) 3
  exact ⟨h.1, h.2.1 1 (by decide) (by decide)⟩

/-- C10: `computeFromMap` counts an index as read whenever its entry is a
truthy non-array value: the emptiness test only applies to arrays, so a
truthy scalar at `i < total` contributes to `uniqueRead` and is skipped as
`firstUnread`. -/
theorem computeFromMap_truthy_scalar (m : ReadMap) (total i : Nat)
    (hi : i < total) (ht : isTruthyNonArray (m i) = true) :
    hasRead (m i) = true
    ∧ (computeFromMap m total).1
        = ((List.range total).filter (fun j => hasRead (m j))).length
    ∧ i ∈ (List.range total).filter (fun j => hasRead (m j))
    ∧ (computeFromMap m total).2 ≠ i := by
  have hhas : hasRead (m i) = true := by
    cases h : m i <;> rw [h] at ht <;> simp_all [hasRead, isTruthyNonArray]
  refine ⟨hhas, ?_, ?_, ?_⟩
  · rw [computeFromMap_fst, List.countP_eq_length_filter]
  · exact List.mem_filter.mpr ⟨List.mem_range.mpr hi, hhas⟩
  · rw [computeFromMap_snd]
    cases hfind : (List.range total).find? (fun j => !hasRead (m j)) with
    | none =>
      simp only [Option.getD_none]
      omega
    | some j =>
      simp only [Option.getD_some]
      intro hji
      subst hji
      have := List.find?_some hfind
      rw [hhas] at this
      simp at this

/-- Witness for C10 at a map holding the string `"a"` at index 0. -/
theorem computeFromMap_truthy_scalar_witness :
    hasRead ((fun j => if j = 0 then JsVal.strV ['a'] else .undefV) 0) = true
    ∧ (computeFromMap (fun j => if j = 0 then JsVal.strV ['a'] else .undefV) 1).2 ≠ 0 := by
  have h := computeFromMap_truthy_scalar
    (fun j => if j = 0 then JsVal.strV ['a'] else .undefV) 1 0 (by decide) (by decide)
  exact ⟨h.1, h.2.2.2⟩

/-- C3: finalize is idempotent under immediate retry: running the finalize
map update twice on the same checked document with the same
second-precision stamp leaves the map identical to the state after the
first run — no index gains a duplicate timestamp. -/
theorem finalize_idempotent (content : Str) (m : ReadMap) (stamp : Str) :
    finalizeMapUpdate (finalizeMapUpdate m stamp (sortedIndices content)) stamp
        (sortedIndices content)
      = finalizeMapUpdate m stamp (sortedIndices content) := by
  funext j
  simp only [finalizeMapUpdate_apply]
  by_cases hj : j ∈ sortedIndices content <;> simp [hj, touchVal_idem]

/-- C4: finalize extracts completed indices as a set: the completed list is
duplicate-free, an index occurs in it exactly once when some checked line
carries it, it yields at most one event row, and the concrete document with
two checked `(idx:7)` lines yields exactly `[7]`. -/
theorem finalize_extracts_set (content : Str) (n : Nat)
    (plan : List (Option PlanItem)) (stamp : Str) :
    (sortedIndices content).Nodup
    ∧ (sortedIndices content).count n
        = (if n ∈ scanMatches content then 1 else 0)
    ∧ ((eventRows plan stamp (sortedIndices content)).filter (fun e => e.idx == n)).length ≤ 1
    ∧ sortedIndices ("- [x] Gen 1:1 (idx:7)\n- [x] Gen 1:2 (idx:7)".toList) = [7] := by
  refine ⟨sortedIndices_nodup content, ?_, ?_, ?_⟩
  · by_cases hn : n ∈ scanMatches content
    · rw [if_pos hn]
      exact List.count_eq_one_of_mem (sortedIndices_nodup content)
        ((mem_sortedIndices content n).mpr hn)
    · rw [if_neg hn]
      exact List.count_eq_zero.mpr (fun hmem => hn ((mem_sortedIndices content n).mp hmem))
  · exact eventRows_filter_le_one plan stamp _ (sortedIndices_nodup content) n
  · decide

/-- C2 (code bug): with `total=100, targetDays=10, daysElapsed=5,
versesRead=60` (ahead of schedule, `expected=50`), the code computes
`Math.max(1, expected - versesRead || pace) = max(1, -10) = 1` because the
negative difference is truthy, while the specified recommendation
`catchup if catchup > 0 else pace` is `pace = 8`. -/
theorem insertTodayTarget_ahead_of_schedule :
    (insertTodayPacing 100 10 60 0 4).daysElapsed = 5
    ∧ (insertTodayPacing 100 10 60 0 4).expected = 50
    ∧ (insertTodayPacing 100 10 60 0 4).pace = 8
    ∧ (insertTodayPacing 100 10 60 0 4).defaultToday = 1
    ∧ specRecommendedToday 100 10 60 5 = 8 := by
  decide

set_option maxRecDepth 4000 in
/-- C6 (code bug): on the events file freshly created by setup — whose
content starts with the header as its very first line — finalize's header
test fails (the regex demands a newline before the header), so the append
emits a second header block: the header is present once before the write
and twice after, violating "never duplicate headers". -/
theorem eventsAppend_duplicates_header :
    testEventsHeader eventsHeaderFull = false
    ∧ headerLineCount eventsHeaderFull = 1
    ∧ headerLineCount
        (appendEventsDoc (some eventsHeaderFull)
          (eventRowText ⟨stampC, 0, "Gen 1:1".toList, "Bible/Genesis/Gen-1.md#Gen-1-1".toList⟩
            ++ ['\n'])) = 2 := by
  decide

/-- C7 counterexample: when the progress document is absent, the
reconciliation write is a no-op — the snapshot does not exist afterwards,
contradicting "after every reconciliation operation the snapshot exists and
holds the freshly derived values". -/
theorem updateProgress_missing_doc : updateProgressFrontmatter none 5 7 = none := rfl

/-- C7 (amended): a missing progress document makes `readProgress` return
the documented defaults (`total_verses = 31102`, `start_date = today`,
`target_days = 365`) without creating the document; a reconciliation write
stores the freshly derived `(last_order, verses_read)` when the document
exists and leaves the vault unchanged when it is absent. -/
theorem readProgress_defaults_and_update
    (today : String) (doc : ProgressDoc) (lo vr : Int) :
    readProgress none today = ⟨0, 0, 31102, today, 365⟩
    ∧ updateProgressFrontmatter none lo vr = none
    ∧ (updateProgressFrontmatter (some doc) lo vr).map
        (fun d => (fmLookup d.fm "last_order", fmLookup d.fm "verses_read"))
        = some (some (.intV lo), some (.intV vr)) := by
  refine ⟨rfl, rfl, ?_⟩
  simp only [updateProgressFrontmatter, progressPatch, processFrontMatter, Option.map_some']
  rw [fmLookup_setKey_other _ _ _ _ (by decide), fmLookup_setKey_same, fmLookup_setKey_same]

/-- C9: the snapshot merge-patch changes only `last_order` and
`verses_read`: the body and every other frontmatter field (with its
position among the untouched fields) are unchanged, and a missing
`last_order`/`verses_read` is inserted rather than failing. -/
theorem progressPatch_frame (d : ProgressDoc) (lo vr : Int) (k : String)
    (h1 : k ≠ "last_order") (h2 : k ≠ "verses_read") :
    (progressPatch d lo vr).body = d.body
    ∧ fmLookup (progressPatch d lo vr).fm "last_order" = some (.intV lo)
    ∧ fmLookup (progressPatch d lo vr).fm "verses_read" = some (.intV vr)
    ∧ fmLookup (progressPatch d lo vr).fm k = fmLookup d.fm k
    ∧ (progressPatch d lo vr).fm.filter
          (fun p => !(p.1 == "last_order" || p.1 == "verses_read"))
        = d.fm.filter (fun p => !(p.1 == "last_order" || p.1 == "verses_read")) := by
  refine ⟨rfl, ?_, ?_, ?_, ?_⟩
  · simp only [progressPatch, processFrontMatter]
    rw [fmLookup_setKey_other _ _ _ _ (by decide), fmLookup_setKey_same]
  · simp only [progressPatch, processFrontMatter]
    rw [fmLookup_setKey_same]
  · simp only [progressPatch, processFrontMatter]
    rw [fmLookup_setKey_other _ _ _ _ h2, fmLookup_setKey_other _ _ _ _ h1]
  · simp only [progressPatch, processFrontMatter]
    rw [setKey_filter_other _ _ _ _ (by intro w; simp),
      setKey_filter_other _ _ _ _ (by intro w; simp)]

/-- Witness for C9 on a typical progress document: `total_verses` and the
body are untouched while the two derived fields are freshly set. -/
theorem progressPatch_frame_witness :
    fmLookup (progressPatch
        ⟨[("total_verses", .intV 31102), ("start_date", .strV "2025-01-01"),
          ("target_days", .intV 365)], "# Progress"⟩ 3 4).fm "total_verses"
        = some (.intV 31102)
    ∧ (progressPatch
        ⟨[("total_verses", .intV 31102), ("start_date", .strV "2025-01-01"),
          ("target_days", .intV 365)], "# Progress"⟩ 3 4).body = "# Progress"
    ∧ fmLookup (progressPatch
        ⟨[("total_verses", .intV 31102), ("start_date", .strV "2025-01-01"),
          ("target_days", .intV 365)], "# Progress"⟩ 3 4).fm "last_order"
        = some (.intV 3) := by
  have h := progressPatch_frame
    ⟨[("total_verses", .intV 31102), ("start_date", .strV "2025-01-01"),
      ("target_days", .intV 365)], "# Progress"⟩ 3 4 "total_verses"
    (by decide) (by decide)
  exact ⟨h.2.2.2.1.trans (by rfl), h.1, h.2.1⟩

/-- C8 counterexample: finalizing the completed set `{3}` against a
three-entry plan emits no event row and does insert index 3 into the map,
but the recomputed snapshot `(uniqueRead, firstUnread)` is `(0, 0)` — the
same as for the untouched empty map — so the index does not participate in
the recomputation, contradicting the claim. -/
theorem finalize_out_of_range_no_participation :
    eventRows plan3c stampC [3] = []
    ∧ finalizeMapUpdate (fun _ => .undefV) stampC [3] 3 = .arr [stampC]
    ∧ computeFromMap (finalizeMapUpdate (fun _ => .undefV) stampC [3]) 3 = (0, 0)
    ∧ computeFromMap (fun _ => .undefV) 3 = (0, 0) := by
  refine ⟨by decide, ?_, ?_, by decide⟩
  · rw [finalizeMapUpdate_apply]
    decide
  · rw [computeFromMap_congr (finalizeMapUpdate (fun _ => .undefV) stampC [3])
      (fun _ => .undefV) 3 ?_]
    · decide
    · intro i hi
      rw [finalizeMapUpdate_apply]
      have : i ∉ [3] := by
        intro hmem
        simp at hmem
        omega
      rw [if_neg this]

/-- C8 (amended): a completed index with no plan entry produces no event
row yet is still inserted into the map; it affects the snapshot
recomputation exactly when it lies below the plan length (an out-of-range
index is outside the scan and leaves the snapshot unchanged, an in-range
`null` entry still counts as read). -/
theorem finalize_missing_plan_entry (plan : List (Option PlanItem)) (m : ReadMap)
    (stamp : Str) (idxs : List Nat) (idx : Nat)
    (hmem : idx ∈ idxs) (hplan : planGet plan idx = none) :
    (∀ e ∈ eventRows plan stamp idxs, e.idx ≠ idx)
    ∧ (∃ l, finalizeMapUpdate m stamp idxs idx = .arr l ∧ l ≠ [])
    ∧ (plan.length ≤ idx →
        computeFromMap (finalizeMapUpdate m stamp idxs) plan.length
          = computeFromMap (finalizeMapUpdate m stamp (idxs.filter (fun j => !(j == idx))))
              plan.length)
    ∧ (idx < plan.length → hasRead (finalizeMapUpdate m stamp idxs idx) = true) := by
  have happly : finalizeMapUpdate m stamp idxs idx = touchVal stamp (m idx) := by
    rw [finalizeMapUpdate_apply, if_pos hmem]
  obtain ⟨l, hl, hlne, _⟩ := touchVal_arr stamp (m idx)
  refine ⟨?_, ⟨l, by rw [happly, hl], hlne⟩, ?_, ?_⟩
  · intro e he hcontra
    have := (eventRows_idx_mem plan stamp idxs e he).2
    rw [hcontra] at this
    exact this hplan
  · intro hge
    apply computeFromMap_congr
    intro j hj
    rw [finalizeMapUpdate_apply, finalizeMapUpdate_apply]
    have hne : j ≠ idx := by omega
    have : j ∈ idxs.filter (fun j => !(j == idx)) ↔ j ∈ idxs := by
      rw [List.mem_filter]
      simp [hne]
    by_cases hjm : j ∈ idxs
    · rw [if_pos hjm, if_pos (this.mpr hjm)]
    · rw [if_neg hjm, if_neg (fun hc => hjm (this.mp hc))]
  · intro _
    rw [happly, hl]
    simp [hasRead, hlne]

/-- Witness for C8 at the concrete plan of length 3, completed set
`{1, 3}` and missing entry index 3. -/
theorem finalize_missing_plan_entry_witness :
    (∀ e ∈ eventRows plan3c stampC [1, 3], e.idx ≠ 3)
    ∧ computeFromMap (finalizeMapUpdate (fun _ => .undefV) stampC [1, 3]) plan3c.length
        = computeFromMap
            (finalizeMapUpdate (fun _ => .undefV) stampC ([1, 3].filter (fun j => !(j == 3))))
            plan3c.length := by
  have h := finalize_missing_plan_entry plan3c (fun _ => .undefV) stampC [1, 3] 3
    (by decide) (by decide)
  exact ⟨h.1, h.2.2.1 (by decide)⟩

/-! ## Support lemmas for the ledger round trip -/

theorem splitOnChar_ne_nil (sep : Char) (s : Str) : splitOnChar sep s ≠ [] := by
  cases s with
  | nil => simp [splitOnChar]
  | cons c rest =>
    simp only [splitOnChar]
    cases h : splitOnChar sep rest with
    | nil => simp
    | cons a t => by_cases hc : c = sep <;> simp [hc]

theorem splitOnChar_append (sep : Char) (l r : Str) (h : sep ∉ l) :
    splitOnChar sep (l ++ sep :: r) = l :: splitOnChar sep r := by
  induction l with
  | nil =>
    simp only [List.nil_append, splitOnChar]
    cases hs : splitOnChar sep r with
    | nil => exact absurd hs (splitOnChar_ne_nil sep r)
    | cons a t => simp
  | cons c cs ih =>
    have hc : c ≠ sep := fun he => h (he ▸ List.mem_cons_self c cs)
    have hcs : sep ∉ cs := fun hm => h (List.mem_cons_of_mem c hm)
    rw [List.cons_append]
    simp only [splitOnChar]
    rw [ih hcs]
    simp [hc]

theorem splitOnChar_length (sep : Char) (s : Str) :
    (splitOnChar sep s).length = s.count sep + 1 := by
  induction s with
  | nil => rfl
  | cons c rest ih =>
    simp only [splitOnChar]
    cases h : splitOnChar sep rest with
    | nil => exact absurd h (splitOnChar_ne_nil sep rest)
    | cons a t =>
      rw [h] at ih
      simp only [List.length_cons] at ih
      by_cases hc : c = sep <;>
        simp [hc, List.count_cons] <;> omega

theorem digitChar_val (d : Nat) (hd : d < 10) : (digitChar d).toNat - 48 = d := by
  interval_cases d <;> rfl

theorem digitChar_isDigit (d : Nat) (hd : d < 10) : (digitChar d).isDigit = true := by
  interval_cases d <;> rfl

theorem natDigitsRev_lt (f n : Nat) : ∀ d ∈ natDigitsRev f n, d < 10 := by
  induction f generalizing n with
  | zero => simp [natDigitsRev]
  | succ f ih =>
    cases n with
    | zero => simp [natDigitsRev]
    | succ m =>
      intro d hd
      simp only [natDigitsRev, List.mem_cons] at hd
      rcases hd with h | h
      · subst h
        exact Nat.mod_lt _ (by omega)
      · exact ih _ d h

theorem natDigitsRev_val (f n : Nat) (h : n ≤ f) :
    (natDigitsRev f n).foldr (fun d a => d + 10 * a) 0 = n := by
  induction f generalizing n with
  | zero =>
    have : n = 0 := by omega
    subst this
    rfl
  | succ f ih =>
    cases n with
    | zero => rfl
    | succ m =>
      have hdiv : (m + 1) / 10 ≤ f := by
        have := Nat.div_lt_self (show 0 < m + 1 by omega) (show 1 < 10 by omega)
        omega
      simp only [natDigitsRev, List.foldr_cons, ih _ hdiv]
      omega

theorem digitsToNat_append_one (xs : Str) (c : Char) :
    digitsToNat (xs ++ [c]) = (digitsToNat xs) * 10 + (c.toNat - 48) := by
  simp [digitsToNat, List.foldl_append]

theorem digitsToNat_rev_map (l : List Nat) (hl : ∀ d ∈ l, d < 10) :
    digitsToNat (l.reverse.map digitChar) = l.foldr (fun d a => d + 10 * a) 0 := by
  induction l with
  | nil => rfl
  | cons d t ih =>
    simp only [List.reverse_cons, List.map_append, List.map_cons, List.map_nil,
      List.foldr_cons]
    rw [digitsToNat_append_one, ih (fun x hx => hl x (List.mem_cons_of_mem d hx)),
      digitChar_val d (hl d (List.mem_cons_self d t))]
    omega

theorem natToChars_ne_nil (n : Nat) : natToChars n ≠ [] := by
  unfold natToChars
  by_cases h : n = 0
  · simp [h]
  · rw [if_neg h]
    obtain ⟨m, rfl⟩ : ∃ m, n = m + 1 := ⟨n - 1, by omega⟩
    simp [natDigitsRev]

theorem natToChars_digits (n : Nat) : ∀ c ∈ natToChars n, c.isDigit = true := by
  unfold natToChars
  by_cases h : n = 0
  · simp only [if_pos h]
    intro c hc
    simp only [List.mem_singleton] at hc
    subst hc
    rfl
  · rw [if_neg h]
    intro c hc
    obtain ⟨d, hd, rfl⟩ := List.mem_map.mp hc
    exact digitChar_isDigit d (natDigitsRev_lt n n d (List.mem_reverse.mp hd))

theorem jsNumberNat_natToChars (n : Nat) : jsNumberNat (natToChars n) = some n := by
  by_cases h : n = 0
  · subst h
    rfl
  · unfold jsNumberNat
    rw [if_neg (by simp [List.isEmpty_iff, natToChars_ne_nil n]),
      if_pos (List.all_eq_true.mpr (natToChars_digits n))]
    unfold natToChars
    rw [if_neg h, digitsToNat_rev_map _ (natDigitsRev_lt n n), natDigitsRev_val n n le_rfl]

theorem isDigit_ne (c x : Char) (h : c.isDigit = true) (hx : x.isDigit = false) : c ≠ x := by
  intro he
  rw [he, hx] at h
  cases h

theorem isDigit_not_space (c : Char) (h : c.isDigit = true) : jsIsSpace c = false := by
  have h1 := isDigit_ne c ' ' h (by decide)
  have h2 := isDigit_ne c '\t' h (by decide)
  have h3 := isDigit_ne c '\n' h (by decide)
  have h4 := isDigit_ne c '\r' h (by decide)
  have h5 := isDigit_ne c (Char.ofNat 12) h (by decide)
  have h6 := isDigit_ne c (Char.ofNat 11) h (by decide)
  simp [jsIsSpace, h1, h2, h3, h4, h5, h6]

theorem jsTrim_padded (m : Str) (hm : m ≠ []) (hs : ∀ c ∈ m, jsIsSpace c = false) :
    jsTrim (' ' :: (m ++ [' '])) = m := by
  cases m with
  | nil => exact absurd rfl hm
  | cons a t =>
    have ha : jsIsSpace a = false := hs a (List.mem_cons_self a t)
    have h1 : (' ' :: ((a :: t) ++ [' '])).dropWhile jsIsSpace = a :: (t ++ [' ']) := by
      rw [List.dropWhile_cons]
      simp only [show jsIsSpace ' ' = true from rfl, if_true, List.cons_append,
        List.dropWhile_cons, ha, Bool.false_eq_true, if_false]
    rw [jsTrim, h1]
    have h2 : (a :: (t ++ [' '])).reverse = ' ' :: (t.reverse ++ [a]) := by
      simp [List.reverse_cons, List.reverse_append]
    rw [h2, List.dropWhile_cons]
    simp only [show jsIsSpace ' ' = true from rfl, if_true]
    cases ht : t.reverse with
    | nil =>
      have : t = [] := by simpa using congrArg List.reverse ht
      subst this
      simp [List.dropWhile_cons, ha]
    | cons b bs =>
      have hb : b ∈ t := List.mem_reverse.mp (ht ▸ List.mem_cons_self b bs)
      have hbns : jsIsSpace b = false := hs b (List.mem_cons_of_mem a hb)
      have hteq : t = bs.reverse ++ [b] := by
        have := congrArg List.reverse ht
        simpa using this
      simp only [List.cons_append, List.dropWhile_cons, hbns, Bool.false_eq_true, if_false]
      rw [hteq]
      simp [List.reverse_cons, List.reverse_append]

theorem splitOnChar_lines (rows : List Str) (h : ∀ r ∈ rows, '\n' ∉ r) :
    splitOnChar '\n' ((rows.map (fun r => r ++ ['\n'])).flatten) = rows ++ [[]] := by
  induction rows with
  | nil => rfl
  | cons r rest ih =>
    have hflat : ((r :: rest).map (fun r => r ++ ['\n'])).flatten
        = r ++ '\n' :: (rest.map (fun r => r ++ ['\n'])).flatten := by
      simp [List.append_assoc]
    rw [hflat, splitOnChar_append '\n' r _ (h r (List.mem_cons_self r rest)),
      ih (fun x hx => h x (List.mem_cons_of_mem r hx))]
    rfl

/-- Unpacked well-formedness of a ledger row. -/
theorem wfEventRow_spec (e : EventRow) (he : wfEventRow e = true) :
    e.ts ≠ [] ∧ (∀ c ∈ e.ts, jsIsSpace c = false ∧ c ≠ '|' ∧ c ≠ '\n')
      ∧ e.ts.head? ≠ some '-' ∧ '\n' ∉ e.ref ∧ '\n' ∉ e.path := by
  unfold wfEventRow at he
  simp only [Bool.and_eq_true, List.all_eq_true, Bool.not_eq_true',
    List.isEmpty_eq_false, bne_iff_ne, ne_eq] at he
  obtain ⟨⟨⟨⟨hne, hall⟩, hhead⟩, href⟩, hpath⟩ := he
  refine ⟨hne, ?_, hhead, ?_, ?_⟩
  · intro c hc
    have := hall c hc
    simp only [Bool.and_eq_true, Bool.not_eq_true', bne_iff_ne, ne_eq] at this
    exact ⟨this.1.1, this.1.2, this.2⟩
  · have : '\n' ∉ e.ref := by simpa using href
    exact this
  · have : '\n' ∉ e.path := by simpa using hpath
    exact this

theorem splitOnChar_cons_sep (sep : Char) (r : Str) :
    splitOnChar sep (sep :: r) = [] :: splitOnChar sep r := by
  simp only [splitOnChar]
  cases h : splitOnChar sep r with
  | nil => exact absurd h (splitOnChar_ne_nil sep r)
  | cons a t => simp

/-- The rendered row, re-associated to expose its three leading columns. -/
theorem eventRowText_eq (e : EventRow) :
    eventRowText e
      = '|' :: ((' ' :: (e.ts ++ [' '])) ++ '|' ::
          ((' ' :: (natToChars e.idx ++ [' '])) ++ '|' ::
            (' ' :: (e.ref ++ [' ', '|', ' '] ++ e.path ++ [' ', '|'])))) := by
  simp [eventRowText, List.append_assoc]

theorem mem_eventRowText (e : EventRow) (c : Char) (hc : c ∈ eventRowText e) :
    c = '|' ∨ c = ' ' ∨ c ∈ e.ts ∨ c ∈ natToChars e.idx ∨ c ∈ e.ref ∨ c ∈ e.path := by
  simp only [eventRowText, List.append_assoc, List.mem_append, List.mem_cons,
    List.not_mem_nil, or_false] at hc
  tauto

theorem eventRowText_no_newline (e : EventRow) (he : wfEventRow e = true) :
    '\n' ∉ eventRowText e := by
  obtain ⟨_, hall, _, href, hpath⟩ := wfEventRow_spec e he
  intro hmem
  rcases mem_eventRowText e '\n' hmem with h | h | h | h | h | h
  · cases h
  · cases h
  · exact (hall '\n' h).2.2 rfl
  · have := natToChars_digits e.idx '\n' h
    cases this
  · exact href h
  · exact hpath h

theorem tableLine_eventRowText (e : EventRow) (he : wfEventRow e = true) :
    tableLine (eventRowText e) = true := by
  obtain ⟨hts, hall, hhead, _, _⟩ := wfEventRow_spec e he
  rw [eventRowText_eq]
  cases hts' : e.ts with
  | nil => exact absurd hts' hts
  | cons a t =>
    have ha : jsIsSpace a = false := (hall a (hts' ▸ List.mem_cons_self a t)).1
    have hadash : a ≠ '-' := by
      intro hctr
      apply hhead
      rw [hts', hctr]
      rfl
    simp only [tableLine, hts', List.cons_append, List.dropWhile_cons,
      show jsIsSpace ' ' = true from rfl, if_true, ha, Bool.false_eq_true, if_false,
      List.head?_cons]
    simpa using hadash

theorem splitOnChar_eventRowText (e : EventRow) (he : wfEventRow e = true) :
    splitOnChar '|' (eventRowText e)
      = [] :: (' ' :: (e.ts ++ [' '])) :: (' ' :: (natToChars e.idx ++ [' ']))
          :: splitOnChar '|' (' ' :: (e.ref ++ [' ', '|', ' '] ++ e.path ++ [' ', '|'])) := by
  obtain ⟨_, hall, _, _, _⟩ := wfEventRow_spec e he
  have hs1 : '|' ∉ ' ' :: (e.ts ++ [' ']) := by
    intro hmem
    rcases List.mem_cons.mp hmem with h | h
    · cases h
    · rcases List.mem_append.mp h with h | h
      · exact (hall '|' h).2.1 rfl
      · simp at h
  have hs2 : '|' ∉ ' ' :: (natToChars e.idx ++ [' ']) := by
    intro hmem
    rcases List.mem_cons.mp hmem with h | h
    · cases h
    · rcases List.mem_append.mp h with h | h
      · have := natToChars_digits e.idx '|' h
        cases this
      · simp at h
  rw [eventRowText_eq, splitOnChar_cons_sep, splitOnChar_append '|' _ _ hs1,
    splitOnChar_append '|' _ _ hs2]

theorem parseRowPair_eventRowText (e : EventRow) (he : wfEventRow e = true) :
    parseRowPair (eventRowText e) = some (e.idx, e.ts) := by
  obtain ⟨hts, hall, _, _, _⟩ := wfEventRow_spec e he
  have htrim1 : jsTrim (' ' :: (e.ts ++ [' '])) = e.ts :=
    jsTrim_padded e.ts hts (fun c hc => (hall c hc).1)
  have htrim2 : jsTrim (' ' :: (natToChars e.idx ++ [' '])) = natToChars e.idx :=
    jsTrim_padded (natToChars e.idx) (natToChars_ne_nil e.idx)
      (fun c hc => isDigit_not_space c (natToChars_digits e.idx c hc))
  have hcount : 2 ≤ List.count '|' (' ' :: (e.ref ++ [' ', '|', ' '] ++ e.path ++ [' ', '|'])) := by
    simp [List.count_cons, List.count_append]
    omega
  have hlen := splitOnChar_length '|' (' ' :: (e.ref ++ [' ', '|', ' '] ++ e.path ++ [' ', '|']))
  simp only [parseRowPair, splitOnChar_eventRowText e he, List.map_cons, List.length_cons,
    List.length_map]
  rw [if_pos (by omega)]
  simp only [List.get?_cons_succ, List.get?_cons_zero]
  rw [htrim1, htrim2, jsNumberNat_natToChars]
  have hempty : e.ts.isEmpty = false := by
    cases h : e.ts with
    | nil => exact absurd h hts
    | cons a t => rfl
  simp [hempty]

/-- Parsing a freshly rendered, well-formed ledger returns exactly its
`(idx, timestamp)` pairs in order. -/
theorem parseLedgerPairs_renderLedger (events : List EventRow) (h : wfLedger events = true) :
    parseLedgerPairs (renderLedger events) = events.map (fun e => (e.idx, e.ts)) := by
  have hwf : ∀ e ∈ events, wfEventRow e = true := by
    simpa [wfLedger, List.all_eq_true] using h
  have hnl : ∀ r ∈ events.map eventRowText, '\n' ∉ r := by
    intro r hr
    obtain ⟨e, hee, rfl⟩ := List.mem_map.mp hr
    exact eventRowText_no_newline e (hwf e hee)
  have hshape : renderLedger events
      = eventsHeaderLine ++ '\n' :: (eventsSepLine ++ '\n' ::
          ((events.map eventRowText).map (fun r => r ++ ['\n'])).flatten) := by
    simp only [renderLedger, eventsHeaderFull, List.map_map, Function.comp_def,
      List.append_assoc, List.cons_append, List.singleton_append, List.nil_append]
  have hsplit : splitOnChar '\n' (renderLedger events)
      = eventsHeaderLine :: eventsSepLine :: (events.map eventRowText ++ [[]]) := by
    rw [hshape, splitOnChar_append '\n' _ _ (by decide),
      splitOnChar_append '\n' _ _ (by decide), splitOnChar_lines _ hnl]
  have hfilter : (eventsHeaderLine :: eventsSepLine
        :: (events.map eventRowText ++ [[]])).filter tableLine
      = eventsHeaderLine :: events.map eventRowText := by
    rw [List.filter_cons_of_pos (by decide), List.filter_cons_of_neg (by decide),
      List.filter_append]
    have h1 : (events.map eventRowText).filter tableLine = events.map eventRowText :=
      List.filter_eq_self.mpr (fun r hr => by
        obtain ⟨e, hee, rfl⟩ := List.mem_map.mp hr
        exact tableLine_eventRowText e (hwf e hee))
    rw [h1]
    have h2 : ([([] : Str)]).filter tableLine = [] := by decide
    rw [h2, List.append_nil]
  have hrows : ∀ (l : List EventRow), (∀ e ∈ l, wfEventRow e = true) →
      (l.map eventRowText).filterMap parseRowPair = l.map (fun e => (e.idx, e.ts)) := by
    intro l hl
    induction l with
    | nil => rfl
    | cons e t iht =>
      simp only [List.map_cons, List.filterMap_cons,
        parseRowPair_eventRowText e (hl e (List.mem_cons_self e t))]
      rw [iht (fun x hx => hl x (List.mem_cons_of_mem e hx))]
  unfold parseLedgerPairs
  rw [hsplit, hfilter, List.drop_succ_cons, List.drop_zero, hrows events hwf]

set_option maxRecDepth 4000 in
/-- One finalize session replayed as `(idx, stamp)` pair insertions equals
the finalize map update for that session. -/
theorem replayStep_session (m : ReadMap) (stamp : Str) (sorted : List Nat) :
    (sorted.map (fun i => (i, stamp))).foldl
        (fun m p => fun j => if j = p.1 then touchVal p.2 (m j) else m j) m
      = finalizeMapUpdate m stamp sorted := by
  induction sorted generalizing m with
  | nil => rfl
  | cons i rest ih =>
    show (rest.map (fun i => (i, stamp))).foldl _
        (fun j => if j = i then touchVal stamp (m j) else m j) = _
    have hm : (fun j => if j = i then touchVal stamp (m j) else m j)
        = (fun j => if j = i then touchVal stamp (m i) else m j) := by
      funext j
      by_cases hj : j = i <;> simp [hj]
    rw [hm]
    exact ih _

/-- Replaying the complete ledger of a sequence of finalize sessions
rebuilds exactly the map those sessions produced. -/
theorem rebuildFromPairs_sessionLedger (rp : Nat → Str × Str)
    (sessions : List (Str × List Nat)) :
    rebuildFromPairs ((sessionLedger rp sessions).map (fun e => (e.idx, e.ts)))
      = finalizeSessions sessions := by
  unfold rebuildFromPairs finalizeSessions sessionLedger
  rw [List.map_flatten, List.foldl_flatten, List.foldl_map, List.foldl_map]
  have hstep : (fun (m : ReadMap) (s : Str × List Nat) =>
        ((s.2.map (fun i => (⟨s.1, i, (rp i).1, (rp i).2⟩ : EventRow))).map
            (fun e => (e.idx, e.ts))).foldl
          (fun m p => fun j => if j = p.1 then touchVal p.2 (m j) else m j) m)
      = (fun m s => finalizeMapUpdate m s.1 s.2) := by
    funext m s
    rw [List.map_map]
    exact replayStep_session m s.1 s.2
  rw [hstep]

/-- C5: round-trip recovery: for every read-state map produced by a
sequence of finalize sessions whose event ledger is complete (one row per
touched index per session, in order), Rebuild Map From Events applied to
the rendered ledger text returns exactly that map, so recomputing the
snapshot yields the same `(last_order, verses_read)` pair as computing it
from the original map. -/
theorem rebuild_roundtrip (rp : Nat → Str × Str) (sessions : List (Str × List Nat))
    (h : wfLedger (sessionLedger rp sessions) = true) :
    rebuildMapFromEvents (renderLedger (sessionLedger rp sessions))
        = finalizeSessions sessions
    ∧ ∀ total,
        computeFromMap (rebuildMapFromEvents (renderLedger (sessionLedger rp sessions))) total
          = computeFromMap (finalizeSessions sessions) total := by
  have hp := parseLedgerPairs_renderLedger _ h
  have hr : rebuildMapFromEvents (renderLedger (sessionLedger rp sessions))
      = finalizeSessions sessions := by
    rw [rebuildMapFromEvents, hp, rebuildFromPairs_sessionLedger]
  exact ⟨hr, fun total => by rw [hr]⟩

set_option maxRecDepth 8000 in
/-- Witness for C5 on two concrete finalize sessions (three insertions,
two distinct stamps). -/
theorem rebuild_roundtrip_witness :
    wfLedger (sessionLedger (fun _ => ("Gen 1:1".toList, "Bible/Genesis/Gen-1.md".toList))
        [(stampC, [0, 2]), ("2025-01-02T08:00:00".toList, [1])]) = true
    ∧ computeFromMap
        (rebuildMapFromEvents (renderLedger
          (sessionLedger (fun _ => ("Gen 1:1".toList, "Bible/Genesis/Gen-1.md".toList))
            [(stampC, [0, 2]), ("2025-01-02T08:00:00".toList, [1])]))) 3
      = computeFromMap
          (finalizeSessions [(stampC, [0, 2]), ("2025-01-02T08:00:00".toList, [1])]) 3 := by
  have hw : wfLedger (sessionLedger (fun _ => ("Gen 1:1".toList, "Bible/Genesis/Gen-1.md".toList))
      [(stampC, [0, 2]), ("2025-01-02T08:00:00".toList, [1])]) = true := by
    decide
  exact ⟨hw, (rebuild_roundtrip (fun _ => ("Gen 1:1".toList, "Bible/Genesis/Gen-1.md".toList))
    [(stampC, [0, 2]), ("2025-01-02T08:00:00".toList, [1])] hw).2 3⟩

end VerseFlow
